import Mathlib

/-!
Verification development for the PhotoToKML repository.

The definitions below are shallow embeddings of the Python sources:
  - src/kml.py            (sanitize_path, cluster_points, create_kml, process_directory)
  - src/PlainExtractTotrack.py (same functions plus the track pass)
  - src/topath.py         (process_kml_file, process_xmp_file)
  - src/cleankml.py       (sanitize_path)
Python strings are embedded as `List Char`, Python floats as `ℚ` (exact
arithmetic idealization of IEEE doubles), and the real-valued haversine
metric as a function into `ℝ`.
-/

/-- Python `str.replace(old, new)` specialized to a single-character pattern
`old`, as used by `sanitize_path` in src/kml.py lines 17-18 (identical copies in
src/PlainExtractTotrack.py lines 78-79 and src/cleankml.py lines 11-12). -/
def replaceStr (old : Char) (new : List Char) (s : List Char) : List Char :=
  s.flatMap fun x => if x = old then new else [x]

/-- Embedding of `sanitize_path` from src/kml.py lines 13-19:
`path.replace(":", "").replace("\\", "_").replace("/", "_").replace(" ", "_")`.
Note the colon is replaced by the EMPTY string, the other three by an
underscore. -/
def sanitize_path (s : List Char) : List Char :=
  replaceStr ' ' ['_'] (replaceStr '/' ['_'] (replaceStr '\\' ['_'] (replaceStr ':' [] s)))

/-- Python `str.replace(old, new, count)` specialized to single-character
`old` and `new`: replace the first `count` occurrences.  Used by `create_kml`
(src/kml.py line 98: `timestamp.replace(':', '-', 2)`). -/
def replaceN (old new : Char) : ℕ → List Char → List Char
  | _, [] => []
  | 0, x :: xs => x :: xs
  | n + 1, x :: xs =>
      if x = old then new :: replaceN old new n xs else x :: replaceN old new (n + 1) xs

/-- Python `str.replace(old, new)` for single characters (all occurrences).
Used by `create_kml` (src/kml.py line 99: `.replace(' ', 'T')`). -/
def replaceAllC (old new : Char) (s : List Char) : List Char :=
  s.map fun x => if x = old then new else x

/-- The timestamp normalization performed by `create_kml`, src/kml.py
lines 98-99 (same in src/PlainExtractTotrack.py lines 153-154):
`timestamp.replace(':', '-', 2).replace(' ', 'T') + 'Z'`. -/
def formatTs (ts : List Char) : List Char :=
  replaceAllC ' ' 'T' (replaceN ':' '-' 2 ts) ++ ['Z']

/-- Value of a digit string, most significant digit first. -/
def digitsVal (ds : List Char) : ℕ :=
  ds.foldl (fun n c => 10 * n + (c.toNat - 48)) 0

/-- Modelled from the spec: the Python builtin `float(...)` (not part of the
repository sources) parsing an unsigned plain decimal numeral, digits with an
optional fractional part.  Returns `none` on any non-numeric input, which is
the only behaviour the error-handling claims depend on. -/
def parseUnsigned (s : List Char) : Option ℚ :=
  let ip := s.takeWhile Char.isDigit
  let rest := s.dropWhile Char.isDigit
  match rest with
  | [] => if ip.isEmpty then none else some (digitsVal ip)
  | '.' :: fp =>
      if fp.all Char.isDigit ∧ (ip ≠ [] ∨ fp ≠ []) then
        some ((digitsVal ip : ℚ) + (digitsVal fp : ℚ) / (10 : ℚ) ^ fp.length)
      else none
  | _ => none

/-- Modelled from the spec: the Python builtin `float(...)` with an optional
leading sign. -/
def parseFloat (s : List Char) : Option ℚ :=
  match s with
  | '-' :: rest => (parseUnsigned rest).map (fun q => -q)
  | '+' :: rest => parseUnsigned rest
  | _ => parseUnsigned s

/-- One GPS record extracted from a photo: the tuple
`(photo_name, lat, lon, timestamp)` built in `process_directory`
(src/kml.py line 167).  The coordinate type is a parameter: `ℚ` for the
executable pipeline, `ℝ` for the analytic distance metric. -/
structure GeoRecord (X : Type) where
  name : String
  lat : X
  lon : X
  timestamp : Option (List Char)
deriving DecidableEq

/-- Modelled from the spec (section 4.1): the haversine great-circle metric on
a sphere of radius 6371 km that `cluster_points` passes to DBSCAN
(src/kml.py line 70, `metric='haversine'` with coordinates converted to
radians on line 67 and the 6371 km radius on line 68).  The sklearn
implementation itself is not part of the repository sources. -/
noncomputable def rad (x : ℝ) : ℝ := x * Real.pi / 180

/-- Haversine distance in kilometres between two records (see `rad`). -/
noncomputable def haversineKm (a b : GeoRecord ℝ) : ℝ :=
  6371 * (2 * Real.arcsin (Real.sqrt (
    Real.sin ((rad b.lat - rad a.lat) / 2) ^ 2 +
    Real.cos (rad a.lat) * Real.cos (rad b.lat) *
      Real.sin ((rad b.lon - rad a.lon) / 2) ^ 2)))

/-- Index-level adjacency on the input list: records `i` and `j` are directly
connected when the boolean neighborhood predicate `near` holds.  In the
program `near` is instantiated with distance-at-most-eps under `haversineKm`
(src/kml.py line 70). -/
def adjB {α : Type} (near : α → α → Bool) (pts : List α) (i j : ℕ) : Bool :=
  match pts[i]?, pts[j]? with
  | some a, some b => near a b
  | _, _ => false

/-- Modelled from the spec (section 4.2): one DBSCAN cluster expansion with
`min_samples=1`.  Starting from a seed set, repeatedly add every index
directly connected to the current set; `fuel` bounds the iteration count. -/
def growComponent (adj : ℕ → ℕ → Bool) (n : ℕ) : ℕ → List ℕ → List ℕ
  | 0, comp => comp
  | fuel + 1, comp =>
      let fresh := (List.range n).filter fun j => !comp.contains j && comp.any fun i => adj i j
      if fresh.isEmpty then comp else growComponent adj n fuel (comp ++ fresh)

/-- The density-connected component of index `i` (fuel `n` suffices for a list
of `n` points). -/
def componentOf (adj : ℕ → ℕ → Bool) (n i : ℕ) : List ℕ := growComponent adj n n [i]

/-- Modelled from the spec (section 4.2): the DBSCAN labelling scan with
`min_samples=1`.  Points are scanned in input order; each yet-unlabelled point
opens the next cluster label and its whole density-connected component
receives that label. -/
def assignLoop (adj : ℕ → ℕ → Bool) (n : ℕ) : List ℕ → List (ℕ × ℤ) → ℤ → List (ℕ × ℤ)
  | [], acc, _ => acc
  | i :: rest, acc, next =>
      if (acc.lookup i).isSome then assignLoop adj n rest acc next
      else
        assignLoop adj n rest
          (acc ++ (((componentOf adj n i).filter fun j => (acc.lookup j).isNone).map
            fun j => (j, next)))
          (next + 1)

/-- Modelled from the spec (section 4.2): the label array
`DBSCAN(eps, min_samples=1).fit(coords).labels_` of src/kml.py lines 70-71.
An index that received no label would carry the DBSCAN noise label `-1`. -/
def dbscanLabels {α : Type} (near : α → α → Bool) (pts : List α) : List ℤ :=
  let asg := assignLoop (adjB near pts) pts.length (List.range pts.length) [] 0
  (List.range pts.length).map fun i => (asg.lookup i).getD (-1)

/-- One step of the Python grouping loop of src/kml.py line 74:
`clusters.setdefault(label, []).append(rec)` on an insertion-ordered dict. -/
def insertAppend {α : Type} (acc : List (ℤ × List α)) (l : ℤ) (a : α) : List (ℤ × List α) :=
  match acc with
  | [] => [(l, [a])]
  | (l', xs) :: rest =>
      if l' = l then (l', xs ++ [a]) :: rest else (l', xs) :: insertAppend rest l a

/-- The grouping loop of src/kml.py lines 72-74: fold the `(label, record)`
pairs into an insertion-ordered association list. -/
def groupLoop {α : Type} : List (ℤ × α) → List (ℤ × List α) → List (ℤ × List α)
  | [], acc => acc
  | (l, a) :: ps, acc => groupLoop ps (insertAppend acc l a)

/-- Embedding of `cluster_points` from src/kml.py lines 57-75 (identical in
src/PlainExtractTotrack.py lines 118-135), parametric in the boolean
neighborhood predicate `near` that the program instantiates with
haversine-distance-at-most-eps.  Empty input returns the empty mapping
(line 62-63); otherwise the DBSCAN labels are grouped in insertion order. -/
def cluster_points {α : Type} (near : α → α → Bool) (pts : List α) : List (ℤ × List α) :=
  if pts.isEmpty then [] else groupLoop ((dbscanLabels near pts).zip pts) []

/-- The cluster retention loop of `process_directory`, src/kml.py lines
180-198: `valid_cluster_count` starts at 0, a cluster with more than 3 members
is retained and numbered `valid_cluster_count`, otherwise its size is added to
`total_discarded_points`. -/
def filterLoop {α : Type} :
    List (ℤ × List α) → ℕ → List (ℕ × List α) → ℕ → List (ℕ × List α) × ℕ × ℕ
  | [], valid, retained, dpts => (retained, valid, dpts)
  | c :: rest, valid, retained, dpts =>
      if 3 < c.2.length then
        filterLoop rest (valid + 1) (retained ++ [(valid + 1, c.2)]) dpts
      else
        filterLoop rest valid retained (dpts + c.2.length)

/-- The cluster filter of `process_directory` (src/kml.py lines 180-198):
returns the retained groups with their 1-based indices, the number of
discarded clusters (`len(clusters) - valid_cluster_count`, line 198) and the
summed size of the discarded clusters (`total_discarded_points`). -/
def filter_clusters {α : Type} (cs : List (ℤ × List α)) : List (ℕ × List α) × ℕ × ℕ :=
  let r := filterLoop cs 0 [] 0
  (r.1, cs.length - r.2.1, r.2.2)

/-- One placemark of the output KML document built by `create_kml`
(src/kml.py lines 90-102): a name, the point coordinates, and an optional
normalized timestamp. -/
structure OutPlacemark where
  name : String
  lon : ℚ
  lat : ℚ
  whenTs : Option (List Char)

/-- The per-record placemark construction of `create_kml`, src/kml.py lines
91-102.  The timestamp element is emitted only when the record's timestamp is
truthy (a non-empty string), and its text is `formatTs` of the raw EXIF
string. -/
def placemarkOf (r : GeoRecord ℚ) : OutPlacemark :=
  { name := r.name
    lon := r.lon
    lat := r.lat
    whenTs :=
      match r.timestamp with
      | none => none
      | some ts => if ts.isEmpty then none else some (formatTs ts) }

/-- Embedding of the placemark list built by `create_kml` (src/kml.py
lines 90-102). -/
def create_kml_placemarks (recs : List (GeoRecord ℚ)) : List OutPlacemark :=
  recs.map placemarkOf

/-- A synthesized track entry: the new `Placemark` that `process_kml_file`
(src/topath.py lines 58-92) or `process_xmp_file` (src/topath.py lines
125-153) appends to the Tracks folder.  The two vertices of its line are
`(originLon, originLat)` and `(minorOffsetLon, minorOffsetLat)`. -/
structure TrackEntry where
  name : Option String
  description : Option String
  originLon : ℚ
  originLat : ℚ
  minorOffsetLon : ℚ
  minorOffsetLat : ℚ
deriving DecidableEq

/-- A point placemark read back from a previously written KML file by
`process_kml_file` (src/topath.py lines 49-56): its optional name element,
optional TimeStamp/when text, and the coordinates text of its Point geometry
(absent when the placemark has no Point or no coordinates element). -/
structure InPlacemark where
  name : Option String
  whenTs : Option String
  coords : Option (List Char)
deriving DecidableEq

/-- Python `str.strip()` on the coordinates text (src/topath.py line 56). -/
def stripC (s : List Char) : List Char :=
  ((s.dropWhile fun c => c.isWhitespace).reverse.dropWhile fun c => c.isWhitespace).reverse

/-- Python `str.split(',')` for a single-character separator
(src/topath.py line 57). -/
def splitOnC (c : Char) : List Char → List (List Char)
  | [] => [[]]
  | x :: xs =>
      let r := splitOnC c xs
      if x = c then [] :: r
      else
        match r with
        | [] => [[x]]
        | y :: ys => (x :: y) :: ys

/-- Outcome of converting one input placemark in `process_kml_file`
(src/topath.py lines 51-92): placemarks without a point geometry are passed
over, a well-formed one yields a `TrackEntry`, and a malformed coordinate
text (fewer than two comma-separated fields, line 57, or a non-numeric field,
lines 89-90) raises, aborting the per-file loop. -/
inductive ConvResult where
  | skip
  | ok (e : TrackEntry)
  | err
deriving DecidableEq

/-- Conversion of one placemark by `process_kml_file`, src/topath.py lines
51-92 (identical in src/PlainExtractTotrack.py lines 344-384).  The second
vertex is the origin shifted by `+0.000001` degrees on both axes (lines
89-90). -/
def convertPlacemark (p : InPlacemark) : ConvResult :=
  match p.coords with
  | none => ConvResult.skip
  | some txt =>
      let parts := splitOnC ',' (stripC txt)
      if parts.length < 2 then ConvResult.err
      else
        match parseFloat (parts.getD 0 []), parseFloat (parts.getD 1 []) with
        | some lon, some lat =>
            ConvResult.ok
              { name := p.name
                description := p.whenTs
                originLon := lon
                originLat := lat
                minorOffsetLon := lon + 1 / 1000000
                minorOffsetLat := lat + 1 / 1000000 }
        | _, _ => ConvResult.err

/-- The entry produced by a placemark when its conversion succeeds. -/
def entryOf? (p : InPlacemark) : Option TrackEntry :=
  match convertPlacemark p with
  | ConvResult.ok e => some e
  | _ => none

/-- The placemark loop of `process_kml_file` (src/topath.py lines 43-94): the
whole loop sits inside one `try`, so the first conversion error stops the
loop; entries appended before the error stay in the folder.  The boolean
records whether the per-file exception handler fired (line 93-94 printed a
diagnostic). -/
def kmlLoop : List InPlacemark → List TrackEntry → List TrackEntry × Bool
  | [], acc => (acc, false)
  | p :: rest, acc =>
      match convertPlacemark p with
      | ConvResult.skip => kmlLoop rest acc
      | ConvResult.ok e => kmlLoop rest (acc ++ [e])
      | ConvResult.err => (acc, true)

/-- Embedding of `process_kml_file` from src/topath.py lines 43-94: the
entries appended to the Tracks folder for one input KML file, plus the abort
flag. -/
def process_kml_file (ps : List InPlacemark) : List TrackEntry × Bool :=
  kmlLoop ps []

/-- An XMP geotag document as seen by `process_xmp_file` (src/topath.py lines
96-123): the text contents (possibly absent) of the nodes matched by the
latitude alias query `//geo:lat | //exif:GPSLatitude | //xmp:Latitude` in
document order, and likewise for longitude. -/
structure XmpDoc where
  latNodes : List (Option (List Char))
  lonNodes : List (Option (List Char))
deriving DecidableEq

/-- The resolved latitude text: `lat_elements[0].text` when the alias query
matched at least one node (src/topath.py lines 106-110), `none` otherwise. -/
def latText (d : XmpDoc) : Option (List Char) :=
  match d.latNodes with
  | [] => none
  | t :: _ => t

/-- The resolved longitude text (src/topath.py lines 107-112). -/
def lonText (d : XmpDoc) : Option (List Char) :=
  match d.lonNodes with
  | [] => none
  | t :: _ => t

/-- The fixed description attached to entries from XMP files
(src/topath.py line 134). -/
def xmpDescription : String := "从 XMP 文件提取的坐标"

/-- Embedding of `process_xmp_file` from src/topath.py lines 96-158
(identical in src/PlainExtractTotrack.py lines 388-453): resolve the
coordinate aliases, return with a diagnostic (no entry) when a coordinate is
missing (lines 114-116) or non-numeric (lines 118-123), otherwise append one
track entry offset by `+0.000001` degrees on both axes. -/
def process_xmp_file (fname : String) (d : XmpDoc) : Option TrackEntry :=
  match latText d, lonText d with
  | some latS, some lonS =>
      match parseFloat latS, parseFloat lonS with
      | some lat, some lon =>
          some
            { name := some fname
              description := some xmpDescription
              originLon := lon
              originLat := lat
              minorOffsetLon := lon + 1 / 1000000
              minorOffsetLat := lat + 1 / 1000000 }
      | _, _ => none
  | _, _ => none

/-- The XMP half of the track pass (src/topath.py lines 177-180): every XMP
file in the scan list is processed in turn; documents that resolve contribute
one entry each, skipped documents contribute nothing. -/
def xmp_track_pass (docs : List (String × XmpDoc)) : List TrackEntry :=
  docs.filterMap fun fd => process_xmp_file fd.1 fd.2

/-! ### Helper lemmas for the string replacement functions -/

lemma replaceStr_nil (old : Char) (new : List Char) : replaceStr old new [] = [] := rfl

lemma replaceStr_cons (old : Char) (new : List Char) (x : Char) (s : List Char) :
    replaceStr old new (x :: s) = (if x = old then new else [x]) ++ replaceStr old new s := by
  simp [replaceStr]

lemma replaceStr_append (old : Char) (new : List Char) (a b : List Char) :
    replaceStr old new (a ++ b) = replaceStr old new a ++ replaceStr old new b := by
  simp [replaceStr]

lemma sanitize_path_append (a b : List Char) :
    sanitize_path (a ++ b) = sanitize_path a ++ sanitize_path b := by
  simp [sanitize_path, replaceStr_append]

/-- Claim C5, counterexample: the spec says `sanitize` turns a colon into an
underscore, but `sanitize_path` (src/kml.py line 17) replaces the colon with
the empty string: on the one-character input `":"` the output is `""`, not
`"_"`. -/
theorem C5_sanitize_colon_counterexample :
    sanitize_path [':'] = [] ∧ sanitize_path [':'] ≠ ['_'] := by
  decide

/-- Claim C5, amended: `sanitize_path` removes colons and replaces
backslashes, forward slashes and spaces with underscores, character by
character. -/
theorem C5_sanitize_amended (s : List Char) :
    sanitize_path s = s.flatMap fun ch =>
      if ch = ':' then []
      else if ch = '\\' then ['_']
      else if ch = '/' then ['_']
      else if ch = ' ' then ['_']
      else [ch] := by
  induction s with
  | nil => rfl
  | cons x s ih =>
      rw [show x :: s = [x] ++ s from rfl, sanitize_path_append,
        List.flatMap_append, ih]
      congr 1
      by_cases h1 : x = ':'
      · subst h1; decide
      by_cases h2 : x = '\\'
      · subst h2; decide
      by_cases h3 : x = '/'
      · subst h3; decide
      by_cases h4 : x = ' '
      · subst h4; decide
      simp [sanitize_path, replaceStr, h1, h2, h3, h4]

/-! ### Claim C3: the cluster filter -/

lemma filterLoop_step_pos {α : Type} (c : ℤ × List α) (rest : List (ℤ × List α))
    (v : ℕ) (r : List (ℕ × List α)) (d : ℕ) (h : 3 < c.2.length) :
    filterLoop (c :: rest) v r d = filterLoop rest (v + 1) (r ++ [(v + 1, c.2)]) d := by
  simp [filterLoop, h]

lemma filterLoop_step_neg {α : Type} (c : ℤ × List α) (rest : List (ℤ × List α))
    (v : ℕ) (r : List (ℕ × List α)) (d : ℕ) (h : ¬ 3 < c.2.length) :
    filterLoop (c :: rest) v r d = filterLoop rest v r (d + c.2.length) := by
  simp [filterLoop, h]

lemma filterLoop_retained {α : Type} :
    ∀ (cs : List (ℤ × List α)) (v : ℕ) (r : List (ℕ × List α)) (d : ℕ),
      (filterLoop cs v r d).1 =
        r ++ (List.range' (v + 1) ((cs.filter fun c => 3 < c.2.length).length)).zip
          ((cs.filter fun c => 3 < c.2.length).map Prod.snd) := by
  intro cs
  induction cs with
  | nil => intro v r d; simp [filterLoop]
  | cons c rest ih =>
      intro v r d
      by_cases h : 3 < c.2.length
      · rw [filterLoop_step_pos c rest v r d h, ih]
        simp [List.filter_cons, decide_eq_true h, List.range'_succ]
      · rw [filterLoop_step_neg c rest v r d h, ih]
        simp [List.filter_cons, decide_eq_false h]

lemma filterLoop_valid {α : Type} :
    ∀ (cs : List (ℤ × List α)) (v : ℕ) (r : List (ℕ × List α)) (d : ℕ),
      (filterLoop cs v r d).2.1 = v + (cs.filter fun c => 3 < c.2.length).length := by
  intro cs
  induction cs with
  | nil => intro v r d; simp [filterLoop]
  | cons c rest ih =>
      intro v r d
      by_cases h : 3 < c.2.length
      · rw [filterLoop_step_pos c rest v r d h, ih]
        simp [List.filter_cons, decide_eq_true h]
        omega
      · rw [filterLoop_step_neg c rest v r d h, ih]
        simp [List.filter_cons, decide_eq_false h]

lemma filterLoop_dpts {α : Type} :
    ∀ (cs : List (ℤ × List α)) (v : ℕ) (r : List (ℕ × List α)) (d : ℕ),
      (filterLoop cs v r d).2.2 =
        d + ((cs.filter fun c => c.2.length ≤ 3).map fun c => c.2.length).sum := by
  intro cs
  induction cs with
  | nil => intro v r d; simp [filterLoop]
  | cons c rest ih =>
      intro v r d
      by_cases h : 3 < c.2.length
      · have h2 : ¬ c.2.length ≤ 3 := by omega
        rw [filterLoop_step_pos c rest v r d h, ih]
        simp [List.filter_cons, decide_eq_false h2]
      · have h2 : c.2.length ≤ 3 := by omega
        rw [filterLoop_step_neg c rest v r d h, ih]
        simp [List.filter_cons, decide_eq_true h2]
        omega

lemma filter_length_partition {α : Type} (cs : List (ℤ × List α)) :
    ((cs.filter fun c => 3 < c.2.length).length)
      + ((cs.filter fun c => c.2.length ≤ 3).length) = cs.length := by
  induction cs with
  | nil => simp
  | cons c rest ih =>
      by_cases h : 3 < c.2.length
      · have h2 : ¬ c.2.length ≤ 3 := by omega
        simp [List.filter_cons, decide_eq_true h, decide_eq_false h2]
        omega
      · have h2 : c.2.length ≤ 3 := by omega
        simp [List.filter_cons, decide_eq_false h, decide_eq_true h2]
        omega

/-- Claim C3: the retention loop of `process_directory` (src/kml.py lines
180-198) keeps exactly the clusters with strictly more than 3 members (so a
4-member cluster is kept and a 3-member cluster is dropped), numbers the
retained groups 1..K in iteration order, and exposes both the number of
discarded clusters and their summed member count. -/
theorem C3_cluster_filter {α : Type} (cs : List (ℤ × List α)) :
    (filter_clusters cs).1.map Prod.snd = (cs.filter fun c => 3 < c.2.length).map Prod.snd
    ∧ (filter_clusters cs).1.map Prod.fst =
        List.range' 1 ((cs.filter fun c => 3 < c.2.length).length)
    ∧ (filter_clusters cs).2.1 = (cs.filter fun c => c.2.length ≤ 3).length
    ∧ (filter_clusters cs).2.2 =
        ((cs.filter fun c => c.2.length ≤ 3).map fun c => c.2.length).sum := by
  have hle : (cs.filter fun c => decide ¬ 3 < c.2.length)
      = cs.filter fun c => c.2.length ≤ 3 := by
    apply List.filter_congr
    intro c _
    simp [Nat.not_lt]
  have hlen := filter_length_partition cs
  refine ⟨?_, ?_, ?_, ?_⟩
  · simp only [filter_clusters, filterLoop_retained cs 0 [] 0, List.nil_append]
    rw [List.map_snd_zip _ _ (by simp)]
  · simp only [filter_clusters, filterLoop_retained cs 0 [] 0, List.nil_append]
    rw [List.map_fst_zip _ _ (by simp)]
  · simp only [filter_clusters, filterLoop_valid cs 0 [] 0]
    omega
  · simp only [filter_clusters, filterLoop_dpts cs 0 [] 0, Nat.zero_add]

/-! ### Claim C8: the haversine metric -/

/-- Claim C8: the great-circle metric used by the clustering (haversine on a
sphere of radius 6371 km, degrees converted to radians) is zero on the
diagonal, symmetric, and nonnegative. -/
theorem C8_haversine_metric :
    (∀ a : GeoRecord ℝ, haversineKm a a = 0)
    ∧ (∀ a b : GeoRecord ℝ, haversineKm a b = haversineKm b a)
    ∧ (∀ a b : GeoRecord ℝ, 0 ≤ haversineKm a b) := by
  refine ⟨?_, ?_, ?_⟩
  · intro a
    simp [haversineKm]
  · intro a b
    have key : ∀ x y : ℝ, Real.sin ((x - y) / 2) ^ 2 = Real.sin ((y - x) / 2) ^ 2 := by
      intro x y
      rw [show (x - y) / 2 = -((y - x) / 2) by ring, Real.sin_neg]
      ring
    simp only [haversineKm]
    rw [key (rad b.lat) (rad a.lat), key (rad b.lon) (rad a.lon),
      mul_comm (Real.cos (rad a.lat)) (Real.cos (rad b.lat))]
  · intro a b
    have h2 : 0 ≤ Real.arcsin (Real.sqrt (
        Real.sin ((rad b.lat - rad a.lat) / 2) ^ 2 +
        Real.cos (rad a.lat) * Real.cos (rad b.lat) *
          Real.sin ((rad b.lon - rad a.lon) / 2) ^ 2)) :=
      Real.arcsin_nonneg.mpr (Real.sqrt_nonneg _)
    exact mul_nonneg (by norm_num) (mul_nonneg (by norm_num) h2)

/-! ### Claim C6: timestamp normalization in create_kml -/

lemma replaceN_zero (old new : Char) (s : List Char) : replaceN old new 0 s = s := by
  cases s <;> rfl

lemma replaceN_cons_hit (old new : Char) (n : ℕ) (xs : List Char) :
    replaceN old new (n + 1) (old :: xs) = new :: replaceN old new n xs := by
  simp [replaceN]

lemma replaceN_append_not_mem (old new : Char) (xs : List Char) (h : old ∉ xs) :
    ∀ (n : ℕ) (ys : List Char),
      replaceN old new n (xs ++ ys) = xs ++ replaceN old new n ys := by
  induction xs with
  | nil => intro n ys; rfl
  | cons x xs ih =>
      intro n ys
      have hx : ¬ x = old := fun he => h (by rw [he]; exact List.mem_cons_self old xs)
      cases n with
      | zero => rw [replaceN_zero, replaceN_zero]
      | succ n =>
          have htl : old ∉ xs := fun hm => h (List.mem_cons_of_mem x hm)
          simp only [List.cons_append, replaceN, if_neg hx]
          exact congrArg (fun l => x :: l) (ih htl (n + 1) ys)

lemma replaceAllC_cons (old new x : Char) (s : List Char) :
    replaceAllC old new (x :: s) = (if x = old then new else x) :: replaceAllC old new s := by
  simp [replaceAllC]

lemma replaceAllC_append (old new : Char) (a b : List Char) :
    replaceAllC old new (a ++ b) = replaceAllC old new a ++ replaceAllC old new b := by
  simp [replaceAllC]

lemma replaceAllC_not_mem (old new : Char) (xs : List Char) (h : old ∉ xs) :
    replaceAllC old new xs = xs := by
  induction xs with
  | nil => rfl
  | cons x xs ih =>
      have hx : ¬ x = old := fun he => h (by rw [he]; exact List.mem_cons_self old xs)
      have htl : old ∉ xs := fun hm => h (List.mem_cons_of_mem x hm)
      rw [replaceAllC_cons, if_neg hx, ih htl]

lemma formatTs_exif (d1 d2 d3 t : List Char)
    (h1 : ':' ∉ d1) (h2 : ' ' ∉ d1) (h3 : ':' ∉ d2) (h4 : ' ' ∉ d2)
    (h5 : ' ' ∉ d3) (h6 : ' ' ∉ t) :
    formatTs (d1 ++ ':' :: (d2 ++ ':' :: (d3 ++ ' ' :: t)))
      = d1 ++ '-' :: (d2 ++ '-' :: (d3 ++ 'T' :: (t ++ ['Z']))) := by
  unfold formatTs
  rw [replaceN_append_not_mem ':' '-' d1 h1, replaceN_cons_hit,
    replaceN_append_not_mem ':' '-' d2 h3, replaceN_cons_hit, replaceN_zero]
  rw [replaceAllC_append, replaceAllC_not_mem ' ' 'T' d1 h2, replaceAllC_cons,
    if_neg (by decide : ¬ '-' = ' '), replaceAllC_append,
    replaceAllC_not_mem ' ' 'T' d2 h4, replaceAllC_cons,
    if_neg (by decide : ¬ '-' = ' '), replaceAllC_append,
    replaceAllC_not_mem ' ' 'T' d3 h5, replaceAllC_cons,
    if_pos rfl, replaceAllC_not_mem ' ' 'T' t h6]
  simp

/-- Claim C6: for a placemark written by `create_kml` whose record carries a
capture-time string of the EXIF shape `YYYY:MM:DD HH:MM:SS`, the emitted
timestamp is the input with its first two colons replaced by hyphens, the
space replaced by `T`, and `Z` appended; no timezone conversion happens
(src/kml.py lines 96-100). -/
theorem C6_timestamp_format (recs : List (GeoRecord ℚ)) (r : GeoRecord ℚ)
    (d1 d2 d3 t : List Char) (hr : r ∈ recs)
    (hts : r.timestamp = some (d1 ++ ':' :: (d2 ++ ':' :: (d3 ++ ' ' :: t))))
    (h1 : ':' ∉ d1) (h2 : ' ' ∉ d1) (h3 : ':' ∉ d2) (h4 : ' ' ∉ d2)
    (h5 : ' ' ∉ d3) (h6 : ' ' ∉ t) :
    placemarkOf r ∈ create_kml_placemarks recs
    ∧ (placemarkOf r).whenTs
        = some (d1 ++ '-' :: (d2 ++ '-' :: (d3 ++ 'T' :: (t ++ ['Z'])))) := by
  constructor
  · exact List.mem_map_of_mem placemarkOf hr
  · have hne : (d1 ++ ':' :: (d2 ++ ':' :: (d3 ++ ' ' :: t))).isEmpty = false := by
      cases d1 <;> simp
    simp only [placemarkOf, hts, hne, Bool.false_eq_true, if_false]
    rw [formatTs_exif d1 d2 d3 t h1 h2 h3 h4 h5 h6]

def tsD1 : List Char := ['2', '0', '2', '1']

def tsD2 : List Char := ['0', '5']

def tsD3 : List Char := ['0', '6']

def tsT : List Char := ['0', '7', ':', '0', '8', ':', '0', '9']

def recC6 : GeoRecord ℚ :=
  { name := "p1", lat := 1, lon := 2,
    timestamp := some (tsD1 ++ ':' :: (tsD2 ++ ':' :: (tsD3 ++ ' ' :: tsT))) }

theorem C6_timestamp_format_witness :
    placemarkOf recC6 ∈ create_kml_placemarks [recC6]
    ∧ (placemarkOf recC6).whenTs
        = some (tsD1 ++ '-' :: (tsD2 ++ '-' :: (tsD3 ++ 'T' :: (tsT ++ ['Z'])))) :=
  C6_timestamp_format [recC6] recC6 tsD1 tsD2 tsD3 tsT (List.mem_singleton_self recC6) rfl
    (by decide) (by decide) (by decide) (by decide) (by decide) (by decide)

/-! ### Claims C4, C7, C10: the track pass -/

lemma convertPlacemark_offset (p : InPlacemark) (e : TrackEntry)
    (h : convertPlacemark p = ConvResult.ok e) :
    e.minorOffsetLon - e.originLon = 1 / 1000000
    ∧ e.minorOffsetLat - e.originLat = 1 / 1000000 := by
  cases hc : p.coords with
  | none => simp [convertPlacemark, hc] at h
  | some txt =>
      simp only [convertPlacemark, hc] at h
      split at h
      · exact ConvResult.noConfusion h
      · split at h
        · injection h with h
          subst h
          exact ⟨by simp, by simp⟩
        · exact ConvResult.noConfusion h

lemma process_xmp_file_offset (f : String) (d : XmpDoc) (e : TrackEntry)
    (h : process_xmp_file f d = some e) :
    e.minorOffsetLon - e.originLon = 1 / 1000000
    ∧ e.minorOffsetLat - e.originLat = 1 / 1000000 := by
  unfold process_xmp_file at h
  split at h
  · split at h
    · injection h with h
      subst h
      exact ⟨by simp, by simp⟩
    · cases h
  · cases h

lemma kmlLoop_offset :
    ∀ (ps : List InPlacemark) (acc : List TrackEntry),
      (∀ e ∈ acc, e.minorOffsetLon - e.originLon = 1 / 1000000
        ∧ e.minorOffsetLat - e.originLat = 1 / 1000000) →
      ∀ e ∈ (kmlLoop ps acc).1,
        e.minorOffsetLon - e.originLon = 1 / 1000000
        ∧ e.minorOffsetLat - e.originLat = 1 / 1000000 := by
  intro ps
  induction ps with
  | nil => intro acc hacc; exact hacc
  | cons p rest ih =>
      intro acc hacc
      cases hc : convertPlacemark p with
      | skip =>
          simp only [kmlLoop, hc]
          exact ih acc hacc
      | ok e0 =>
          simp only [kmlLoop, hc]
          refine ih (acc ++ [e0]) ?_
          intro e he
          rcases List.mem_append.mp he with he | he
          · exact hacc e he
          · rcases List.mem_singleton.mp he with rfl
            exact convertPlacemark_offset p e hc
      | err =>
          simp only [kmlLoop, hc]
          exact hacc

/-- Claim C4: every track entry synthesized by the track pass — whether from a
point placemark of a KML file (src/topath.py lines 89-91) or from an XMP
geotag document (src/topath.py lines 150-152) — has its second vertex exactly
`+0.000001` degrees from the origin in both longitude and latitude (in the
exact-rational idealization of Python float arithmetic). -/
theorem C4_track_offset :
    (∀ (ps : List InPlacemark) (e : TrackEntry), e ∈ (process_kml_file ps).1 →
        e.minorOffsetLon - e.originLon = 1 / 1000000
        ∧ e.minorOffsetLat - e.originLat = 1 / 1000000)
    ∧ (∀ (f : String) (d : XmpDoc) (e : TrackEntry), process_xmp_file f d = some e →
        e.minorOffsetLon - e.originLon = 1 / 1000000
        ∧ e.minorOffsetLat - e.originLat = 1 / 1000000) :=
  ⟨fun ps e he => kmlLoop_offset ps [] (by intro e' he'; cases he') e he,
   fun f d e h => process_xmp_file_offset f d e h⟩

def pmGoodW : InPlacemark :=
  { name := some "a", whenTs := some "2021-05-06T07:08:09Z",
    coords := some ['1', '0', '.', '5', ',', '2', '0', '.', '2', '5'] }

instance : Inhabited TrackEntry :=
  ⟨{ name := none, description := none, originLon := 0, originLat := 0,
     minorOffsetLon := 0, minorOffsetLat := 0 }⟩

/-- The single entry synthesized from `pmGoodW`. -/
def entryW : TrackEntry := ((process_kml_file [pmGoodW]).1).headD default

theorem C4_track_offset_witness :
    entryW.minorOffsetLon - entryW.originLon = 1 / 1000000
    ∧ entryW.minorOffsetLat - entryW.originLat = 1 / 1000000 :=
  C4_track_offset.1 [pmGoodW] entryW
    (by rw [show (process_kml_file [pmGoodW]).1 = [entryW] from rfl]
        exact List.mem_singleton_self entryW)

/-- Claim C7: a geotag (XMP) document in the track pass for which no
latitude/longitude alias resolves, or whose resolved coordinate text is not
numeric, is skipped (src/topath.py lines 114-123): it contributes no track
entry, the pass continues with the remaining documents, and no error
propagates. -/
theorem C7_xmp_skip (f : String) (d : XmpDoc) (docs : List (String × XmpDoc))
    (h : latText d = none ∨ lonText d = none
        ∨ (∃ s, latText d = some s ∧ parseFloat s = none)
        ∨ (∃ s, lonText d = some s ∧ parseFloat s = none)) :
    process_xmp_file f d = none
    ∧ xmp_track_pass ((f, d) :: docs) = xmp_track_pass docs := by
  have hnone : process_xmp_file f d = none := by
    unfold process_xmp_file
    rcases h with h | h | ⟨s, hs, hp⟩ | ⟨s, hs, hp⟩
    · cases hlon : lonText d <;> simp [h, hlon]
    · cases hlat : latText d <;> simp [h, hlat]
    · cases hlon : lonText d <;> simp [hs, hlon, hp]
    · cases hlat : latText d with
      | none => simp [hlat]
      | some s2 => cases hp2 : parseFloat s2 <;> simp [hlat, hs, hp, hp2]
  exact ⟨hnone, by simp [xmp_track_pass, List.filterMap_cons, hnone]⟩

def xdocBadW : XmpDoc :=
  { latNodes := [some ['a', 'b', 'c']], lonNodes := [some ['1', '.', '0']] }

def xdocGoodW : XmpDoc :=
  { latNodes := [some ['1', '.', '5']], lonNodes := [some ['2', '.', '5']] }

theorem C7_xmp_skip_witness :
    process_xmp_file "bad" xdocBadW = none
    ∧ xmp_track_pass (("bad", xdocBadW) :: [("good", xdocGoodW)])
        = xmp_track_pass [("good", xdocGoodW)] :=
  C7_xmp_skip "bad" xdocBadW [("good", xdocGoodW)]
    (Or.inr (Or.inr (Or.inl ⟨['a', 'b', 'c'], rfl, rfl⟩)))

lemma kmlLoop_cons (p : InPlacemark) (rest : List InPlacemark) (acc : List TrackEntry) :
    kmlLoop (p :: rest) acc =
      match convertPlacemark p with
      | ConvResult.skip => kmlLoop rest acc
      | ConvResult.ok e => kmlLoop rest (acc ++ [e])
      | ConvResult.err => (acc, true) := rfl

lemma kmlLoop_append_abort :
    ∀ (good : List InPlacemark) (bad : InPlacemark) (rest : List InPlacemark)
      (acc : List TrackEntry),
      (∀ p ∈ good, convertPlacemark p ≠ ConvResult.err) →
      convertPlacemark bad = ConvResult.err →
      kmlLoop (good ++ bad :: rest) acc = (acc ++ good.filterMap entryOf?, true) := by
  intro good
  induction good with
  | nil =>
      intro bad rest acc _ hb
      simp [kmlLoop, hb]
  | cons p ps ih =>
      intro bad rest acc hg hb
      have hp := hg p (List.mem_cons_self p ps)
      rw [List.cons_append]
      cases hc : convertPlacemark p with
      | skip =>
          rw [kmlLoop_cons, hc]
          dsimp only
          rw [ih bad rest acc (fun q hq => hg q (List.mem_cons_of_mem p hq)) hb]
          simp [entryOf?, hc, List.filterMap_cons]
      | ok e =>
          rw [kmlLoop_cons, hc]
          dsimp only
          rw [ih bad rest (acc ++ [e]) (fun q hq => hg q (List.mem_cons_of_mem p hq)) hb]
          simp [entryOf?, hc, List.filterMap_cons]
      | err => exact absurd hc hp

/-- Claim C10: per-file track synthesis is not atomic.  The whole placemark
loop of `process_kml_file` runs inside one exception handler (src/topath.py
lines 44 and 93), so when converting one placemark fails, the entries already
produced from the earlier placemarks of that file are kept, and the
placemarks after the failing one are never processed. -/
theorem C10_kml_nonatomic (good : List InPlacemark) (bad : InPlacemark)
    (rest : List InPlacemark)
    (hg : ∀ p ∈ good, convertPlacemark p ≠ ConvResult.err)
    (hb : convertPlacemark bad = ConvResult.err) :
    process_kml_file (good ++ bad :: rest) = (good.filterMap entryOf?, true) := by
  unfold process_kml_file
  rw [kmlLoop_append_abort good bad rest [] hg hb]
  simp

def pmBadW : InPlacemark :=
  { name := none, whenTs := none, coords := some ['a', 'b', 'c'] }

def pmRestW : InPlacemark :=
  { name := none, whenTs := none, coords := some ['1', ',', '2'] }

theorem C10_kml_nonatomic_witness :
    process_kml_file ([pmGoodW] ++ pmBadW :: [pmRestW]) = ([pmGoodW].filterMap entryOf?, true) :=
  C10_kml_nonatomic [pmGoodW] pmBadW [pmRestW] (by decide) (by decide)

/-! ### Helper lemmas for the clustering model: association-list lookup -/

lemma lookup_cons {β : Type} (i k : ℕ) (v : β) (es : List (ℕ × β)) :
    List.lookup i ((k, v) :: es) = if i == k then some v else List.lookup i es := by
  simp only [List.lookup]
  cases h : i == k <;> simp

lemma lookup_append_some {β : Type} :
    ∀ (acc t : List (ℕ × β)) (i : ℕ) (v : β),
      acc.lookup i = some v → (acc ++ t).lookup i = some v := by
  intro acc
  induction acc with
  | nil => intro t i v h; cases h
  | cons p rest ih =>
      intro t i v h
      obtain ⟨k, w⟩ := p
      rw [lookup_cons] at h
      rw [List.cons_append, lookup_cons]
      cases hik : (i == k)
      · simp only [hik, Bool.false_eq_true, if_false] at h ⊢
        exact ih t i v h
      · simp only [hik, if_true] at h ⊢
        exact h

lemma lookup_append_none {β : Type} :
    ∀ (acc t : List (ℕ × β)) (i : ℕ),
      acc.lookup i = none → (acc ++ t).lookup i = t.lookup i := by
  intro acc
  induction acc with
  | nil => intro t i _; rfl
  | cons p rest ih =>
      intro t i h
      obtain ⟨k, w⟩ := p
      rw [lookup_cons] at h
      rw [List.cons_append, lookup_cons]
      cases hik : (i == k)
      · simp only [hik, Bool.false_eq_true, if_false] at h ⊢
        exact ih t i h
      · simp only [hik, if_true] at h
        cases h

lemma lookup_mem {β : Type} :
    ∀ (l : List (ℕ × β)) (i : ℕ) (v : β), l.lookup i = some v → (i, v) ∈ l := by
  intro l
  induction l with
  | nil => intro i v h; cases h
  | cons p rest ih =>
      intro i v h
      obtain ⟨k, w⟩ := p
      rw [lookup_cons] at h
      cases hik : (i == k)
      · simp only [hik, Bool.false_eq_true, if_false] at h
        exact List.mem_cons_of_mem _ (ih i v h)
      · simp only [hik, if_true, Option.some.injEq] at h
        have hik2 : i = k := by simpa using hik
        subst hik2
        subst h
        exact List.mem_cons_self (i, w) rest

lemma lookup_map_pair {β : Type} (v : β) :
    ∀ (xs : List ℕ) (i : ℕ), i ∈ xs → (xs.map fun j => (j, v)).lookup i = some v := by
  intro xs
  induction xs with
  | nil => intro i h; cases h
  | cons x rest ih =>
      intro i h
      by_cases hix : i = x
      · subst hix
        simp [lookup_cons]
      · have hb : (i == x) = false := by simpa using hix
        rw [List.map_cons, lookup_cons, hb]
        simp only [Bool.false_eq_true, if_false]
        rcases List.mem_cons.mp h with h | h
        · exact absurd h hix
        · exact ih i h

/-! ### Helper lemmas for the clustering model: component expansion -/

lemma subset_growComponent (adj : ℕ → ℕ → Bool) (n : ℕ) :
    ∀ (fuel : ℕ) (comp : List ℕ), comp ⊆ growComponent adj n fuel comp := by
  intro fuel
  induction fuel with
  | zero => intro comp; exact fun x hx => hx
  | succ fuel ih =>
      intro comp
      simp only [growComponent]
      split
      · exact fun x hx => hx
      · exact fun x hx => ih (comp ++ _) (List.mem_append_left _ hx)

lemma mem_componentOf_self (adj : ℕ → ℕ → Bool) (n i : ℕ) : i ∈ componentOf adj n i :=
  subset_growComponent adj n n [i] (List.mem_singleton_self i)

lemma growComponent_reach (adj : ℕ → ℕ → Bool) (n b : ℕ) :
    ∀ (fuel : ℕ) (comp : List ℕ),
      (∀ x ∈ comp, Relation.ReflTransGen (fun a c => adj a c = true) b x) →
      ∀ j ∈ growComponent adj n fuel comp,
        Relation.ReflTransGen (fun a c => adj a c = true) b j := by
  intro fuel
  induction fuel with
  | zero => intro comp hcomp j hj; exact hcomp j hj
  | succ fuel ih =>
      intro comp hcomp j hj
      simp only [growComponent] at hj
      split at hj
      · exact hcomp j hj
      · refine ih _ ?_ j hj
        intro x hx
        rcases List.mem_append.mp hx with hx | hx
        · exact hcomp x hx
        · obtain ⟨hxr, hcond⟩ := List.mem_filter.mp hx
          rw [Bool.and_eq_true] at hcond
          obtain ⟨-, hany⟩ := hcond
          obtain ⟨i, hi, hadj⟩ := List.any_eq_true.mp hany
          exact (hcomp i hi).tail hadj

lemma componentOf_reach (adj : ℕ → ℕ → Bool) (n i : ℕ) :
    ∀ j ∈ componentOf adj n i, Relation.ReflTransGen (fun a c => adj a c = true) i j := by
  refine growComponent_reach adj n i n [i] ?_
  intro x hx
  rcases List.mem_singleton.mp hx with rfl
  exact Relation.ReflTransGen.refl

/-! ### Helper lemmas for the clustering model: the labelling scan -/

lemma assignLoop_cons_pos (adj : ℕ → ℕ → Bool) (n i : ℕ) (rest : List ℕ)
    (acc : List (ℕ × ℤ)) (next : ℤ) (h : (acc.lookup i).isSome = true) :
    assignLoop adj n (i :: rest) acc next = assignLoop adj n rest acc next := by
  simp [assignLoop, h]

lemma assignLoop_cons_neg (adj : ℕ → ℕ → Bool) (n i : ℕ) (rest : List ℕ)
    (acc : List (ℕ × ℤ)) (next : ℤ) (h : ¬ (acc.lookup i).isSome = true) :
    assignLoop adj n (i :: rest) acc next =
      assignLoop adj n rest
        (acc ++ (((componentOf adj n i).filter fun j => (acc.lookup j).isNone).map
          fun j => (j, next))) (next + 1) := by
  simp [assignLoop, h]

lemma assignLoop_prefix (adj : ℕ → ℕ → Bool) (n : ℕ) :
    ∀ (l : List ℕ) (acc : List (ℕ × ℤ)) (next : ℤ),
      ∃ t, assignLoop adj n l acc next = acc ++ t := by
  intro l
  induction l with
  | nil => intro acc next; exact ⟨[], by simp [assignLoop]⟩
  | cons i rest ih =>
      intro acc next
      by_cases h : (acc.lookup i).isSome = true
      · rw [assignLoop_cons_pos adj n i rest acc next h]
        exact ih acc next
      · rw [assignLoop_cons_neg adj n i rest acc next h]
        obtain ⟨t, ht⟩ := ih (acc ++ (((componentOf adj n i).filter
            fun j => (acc.lookup j).isNone).map fun j => (j, next))) (next + 1)
        refine ⟨(((componentOf adj n i).filter
            fun j => (acc.lookup j).isNone).map fun j => (j, next)) ++ t, ?_⟩
        rw [ht, List.append_assoc]

lemma assignLoop_lookup_mono (adj : ℕ → ℕ → Bool) (n : ℕ) (l : List ℕ)
    (acc : List (ℕ × ℤ)) (next : ℤ) (i : ℕ) (v : ℤ) (h : acc.lookup i = some v) :
    (assignLoop adj n l acc next).lookup i = some v := by
  obtain ⟨t, ht⟩ := assignLoop_prefix adj n l acc next
  rw [ht]
  exact lookup_append_some acc t i v h

lemma assignLoop_total (adj : ℕ → ℕ → Bool) (n : ℕ) :
    ∀ (l : List ℕ) (acc : List (ℕ × ℤ)) (next : ℤ) (i : ℕ), i ∈ l →
      ((assignLoop adj n l acc next).lookup i).isSome = true := by
  intro l
  induction l with
  | nil => intro acc next i hi; cases hi
  | cons x rest ih =>
      intro acc next i hi
      by_cases hx : (acc.lookup x).isSome = true
      · rw [assignLoop_cons_pos adj n x rest acc next hx]
        rcases List.mem_cons.mp hi with rfl | hi
        · obtain ⟨v, hv⟩ := Option.isSome_iff_exists.mp hx
          rw [assignLoop_lookup_mono adj n rest acc next i v hv]
          rfl
        · exact ih acc next i hi
      · rw [assignLoop_cons_neg adj n x rest acc next hx]
        rcases List.mem_cons.mp hi with rfl | hi
        · have hnone : acc.lookup i = none := Option.not_isSome_iff_eq_none.mp hx
          have hmem : i ∈ (componentOf adj n i).filter fun j => (acc.lookup j).isNone :=
            List.mem_filter.mpr ⟨mem_componentOf_self adj n i, by simp [hnone]⟩
          have hb := lookup_map_pair next _ i hmem
          have hacc : (acc ++ (((componentOf adj n i).filter
              fun j => (acc.lookup j).isNone).map fun j => (j, next))).lookup i
              = some next := by
            rw [lookup_append_none _ _ _ hnone]
            exact hb
          rw [assignLoop_lookup_mono adj n rest _ (next + 1) i next hacc]
          rfl
        · exact ih _ (next + 1) i hi

lemma mem_batch {next : ℤ} {p : ℕ × ℤ} (C : List ℕ) (f : ℕ → Bool)
    (h : p ∈ (C.filter f).map fun j => (j, next)) : p.1 ∈ C ∧ p.2 = next := by
  obtain ⟨j, hj, hpj⟩ := List.mem_map.mp h
  subst hpj
  exact ⟨(List.mem_filter.mp hj).1, rfl⟩

lemma assignLoop_nonneg (adj : ℕ → ℕ → Bool) (n : ℕ) :
    ∀ (l : List ℕ) (acc : List (ℕ × ℤ)) (next : ℤ),
      (∀ p ∈ acc, 0 ≤ p.2) → 0 ≤ next →
      ∀ p ∈ assignLoop adj n l acc next, 0 ≤ p.2 := by
  intro l
  induction l with
  | nil =>
      intro acc next hacc _ p hp
      simp only [assignLoop] at hp
      exact hacc p hp
  | cons x rest ih =>
      intro acc next hacc hnext p hp
      by_cases hx : (acc.lookup x).isSome = true
      · rw [assignLoop_cons_pos adj n x rest acc next hx] at hp
        exact ih acc next hacc hnext p hp
      · rw [assignLoop_cons_neg adj n x rest acc next hx] at hp
        refine ih _ (next + 1) ?_ (by omega) p hp
        intro q hq
        rcases List.mem_append.mp hq with hq | hq
        · exact hacc q hq
        · have h2 := (mem_batch _ _ hq).2
          omega

lemma assignLoop_reach (adj : ℕ → ℕ → Bool) (n : ℕ) (hadj : ∀ i j, adj i j = adj j i) :
    ∀ (l : List ℕ) (acc : List (ℕ × ℤ)) (next : ℤ),
      (∀ p ∈ acc, p.2 < next) →
      (∀ p q : ℕ × ℤ, p ∈ acc → q ∈ acc → p.2 = q.2 →
        Relation.ReflTransGen (fun a c => adj a c = true) p.1 q.1) →
      ∀ p q : ℕ × ℤ, p ∈ assignLoop adj n l acc next → q ∈ assignLoop adj n l acc next →
        p.2 = q.2 → Relation.ReflTransGen (fun a c => adj a c = true) p.1 q.1 := by
  have hsymm : Symmetric (fun a c => adj a c = true) := by
    intro a c h
    rw [hadj c a]
    exact h
  intro l
  induction l with
  | nil =>
      intro acc next _ hreach p q hp hq hpq
      simp only [assignLoop] at hp hq
      exact hreach p q hp hq hpq
  | cons x rest ih =>
      intro acc next hbound hreach p q hp hq hpq
      by_cases hx : (acc.lookup x).isSome = true
      · rw [assignLoop_cons_pos adj n x rest acc next hx] at hp hq
        exact ih acc next hbound hreach p q hp hq hpq
      · rw [assignLoop_cons_neg adj n x rest acc next hx] at hp hq
        refine ih _ (next + 1) ?_ ?_ p q hp hq hpq
        · intro r hr
          rcases List.mem_append.mp hr with hr | hr
          · have := hbound r hr
            omega
          · have := (mem_batch _ _ hr).2
            omega
        · intro r s hr hs hrs
          rcases List.mem_append.mp hr with hr | hr <;>
            rcases List.mem_append.mp hs with hs | hs
          · exact hreach r s hr hs hrs
          · exfalso
            have h1 := hbound r hr
            have h2 := (mem_batch _ _ hs).2
            omega
          · exfalso
            have h1 := hbound s hs
            have h2 := (mem_batch _ _ hr).2
            omega
          · obtain ⟨hrC, -⟩ := mem_batch _ _ hr
            obtain ⟨hsC, -⟩ := mem_batch _ _ hs
            have h1 := componentOf_reach adj n x r.1 hrC
            have h2 := componentOf_reach adj n x s.1 hsC
            exact Relation.ReflTransGen.trans (Relation.ReflTransGen.symmetric hsymm h1) h2

/-! ### Helper lemmas for the clustering model: the grouping loop -/

lemma insertAppend_mem_pred {α : Type} (P : ℤ → α → Prop) :
    ∀ (acc : List (ℤ × List α)) (l : ℤ) (x : α),
      (∀ g ∈ acc, ∀ a ∈ g.2, P g.1 a) → P l x →
      ∀ g ∈ insertAppend acc l x, ∀ a ∈ g.2, P g.1 a := by
  intro acc
  induction acc with
  | nil =>
      intro l x _ hx g hg a ha
      simp only [insertAppend] at hg
      rcases List.mem_singleton.mp hg with rfl
      rcases List.mem_singleton.mp ha with rfl
      exact hx
  | cons c rest ih =>
      intro l x hacc hx g hg a ha
      obtain ⟨lc, xs⟩ := c
      by_cases hll : lc = l
      · subst hll
        simp only [insertAppend, if_pos rfl] at hg
        rcases List.mem_cons.mp hg with rfl | hg
        · rcases List.mem_append.mp ha with ha | ha
          · exact hacc (lc, xs) (List.mem_cons_self _ _) a ha
          · rcases List.mem_singleton.mp ha with rfl
            exact hx
        · exact hacc g (List.mem_cons_of_mem _ hg) a ha
      · simp only [insertAppend, if_neg hll] at hg
        rcases List.mem_cons.mp hg with rfl | hg
        · exact hacc (lc, xs) (List.mem_cons_self _ _) a ha
        · exact ih l x (fun g2 hg2 => hacc g2 (List.mem_cons_of_mem _ hg2)) hx g hg a ha

lemma groupLoop_mem_pred {α : Type} (P : ℤ → α → Prop) :
    ∀ (ps : List (ℤ × α)) (acc : List (ℤ × List α)),
      (∀ g ∈ acc, ∀ a ∈ g.2, P g.1 a) → (∀ p ∈ ps, P p.1 p.2) →
      ∀ g ∈ groupLoop ps acc, ∀ a ∈ g.2, P g.1 a := by
  intro ps
  induction ps with
  | nil =>
      intro acc hacc _ g hg
      simp only [groupLoop] at hg
      exact hacc g hg
  | cons p ps ih =>
      intro acc hacc hps g hg
      obtain ⟨l, x⟩ := p
      simp only [groupLoop] at hg
      exact ih (insertAppend acc l x)
        (insertAppend_mem_pred P acc l x hacc (hps (l, x) (List.mem_cons_self _ _)))
        (fun q hq => hps q (List.mem_cons_of_mem _ hq)) g hg

lemma insertAppend_join_perm {α : Type} :
    ∀ (acc : List (ℤ × List α)) (l : ℤ) (x : α),
      ((insertAppend acc l x).map Prod.snd).flatten.Perm
        ((acc.map Prod.snd).flatten ++ [x]) := by
  intro acc
  induction acc with
  | nil =>
      intro l x
      simp [insertAppend]
  | cons c rest ih =>
      intro l x
      obtain ⟨lc, xs⟩ := c
      by_cases hll : lc = l
      · subst hll
        simp only [insertAppend, if_pos rfl, if_true, List.map_cons, List.flatten_cons]
        have h1 : (xs ++ [x]) ++ ((rest.map Prod.snd).flatten)
            = xs ++ ([x] ++ (rest.map Prod.snd).flatten) := by
          rw [List.append_assoc]
        have h2 : (xs ++ (rest.map Prod.snd).flatten) ++ [x]
            = xs ++ ((rest.map Prod.snd).flatten ++ [x]) := by
          rw [List.append_assoc]
        rw [h1, h2]
        exact List.Perm.append_left xs List.perm_append_comm
      · simp only [insertAppend, if_neg hll, List.map_cons, List.flatten_cons]
        have h2 : (xs ++ (rest.map Prod.snd).flatten) ++ [x]
            = xs ++ ((rest.map Prod.snd).flatten ++ [x]) := by
          rw [List.append_assoc]
        rw [h2]
        exact List.Perm.append_left xs (ih l x)

lemma groupLoop_join_perm {α : Type} :
    ∀ (ps : List (ℤ × α)) (acc : List (ℤ × List α)),
      ((groupLoop ps acc).map Prod.snd).flatten.Perm
        ((acc.map Prod.snd).flatten ++ ps.map Prod.snd) := by
  intro ps
  induction ps with
  | nil => intro acc; simp [groupLoop]
  | cons p ps ih =>
      intro acc
      obtain ⟨l, x⟩ := p
      simp only [groupLoop, List.map_cons]
      refine (ih (insertAppend acc l x)).trans ?_
      refine (List.Perm.append_right (ps.map Prod.snd) (insertAppend_join_perm acc l x)).trans ?_
      rw [List.append_assoc]
      exact List.Perm.refl _

lemma insertAppend_sublist {α : Type} (done : List α) :
    ∀ (acc : List (ℤ × List α)) (l : ℤ) (x : α),
      (∀ g ∈ acc, g.2.Sublist done) →
      ∀ g ∈ insertAppend acc l x, g.2.Sublist (done ++ [x]) := by
  intro acc
  induction acc with
  | nil =>
      intro l x _ g hg
      simp only [insertAppend] at hg
      rcases List.mem_singleton.mp hg with rfl
      exact (List.nil_sublist done).append (List.Sublist.refl [x])
  | cons c rest ih =>
      intro l x hacc g hg
      obtain ⟨lc, xs⟩ := c
      by_cases hll : lc = l
      · subst hll
        simp only [insertAppend, if_pos rfl] at hg
        rcases List.mem_cons.mp hg with rfl | hg
        · exact (hacc (lc, xs) (List.mem_cons_self _ _)).append (List.Sublist.refl [x])
        · exact (hacc g (List.mem_cons_of_mem _ hg)).trans (List.sublist_append_left done [x])
      · simp only [insertAppend, if_neg hll] at hg
        rcases List.mem_cons.mp hg with rfl | hg
        · exact (hacc (lc, xs) (List.mem_cons_self _ _)).trans (List.sublist_append_left done [x])
        · exact ih l x (fun g2 hg2 => hacc g2 (List.mem_cons_of_mem _ hg2)) g hg

lemma groupLoop_sublist {α : Type} :
    ∀ (ps : List (ℤ × α)) (acc : List (ℤ × List α)) (done : List α),
      (∀ g ∈ acc, g.2.Sublist done) →
      ∀ g ∈ groupLoop ps acc, g.2.Sublist (done ++ ps.map Prod.snd) := by
  intro ps
  induction ps with
  | nil =>
      intro acc done hacc g hg
      simp only [groupLoop] at hg
      rw [List.map_nil, List.append_nil]
      exact hacc g hg
  | cons p ps ih =>
      intro acc done hacc g hg
      obtain ⟨l, x⟩ := p
      simp only [groupLoop] at hg
      have hres := ih (insertAppend acc l x) (done ++ [x])
        (insertAppend_sublist done acc l x hacc) g hg
      rw [List.map_cons, List.append_cons]
      exact hres

lemma insertAppend_keys {α : Type} :
    ∀ (acc : List (ℤ × List α)) (l : ℤ) (x : α),
      (insertAppend acc l x).map Prod.fst =
        if l ∈ acc.map Prod.fst then acc.map Prod.fst else acc.map Prod.fst ++ [l] := by
  intro acc
  induction acc with
  | nil => intro l x; simp [insertAppend]
  | cons c rest ih =>
      intro l x
      obtain ⟨lc, xs⟩ := c
      by_cases hll : lc = l
      · subst hll
        simp [insertAppend]
      · simp only [insertAppend, if_neg hll, List.map_cons, ih l x]
        by_cases hmem : l ∈ rest.map Prod.fst
        · rw [if_pos hmem, if_pos (List.mem_cons_of_mem _ hmem)]
        · rw [if_neg hmem, if_neg ?_, List.cons_append]
          intro hc
          rcases List.mem_cons.mp hc with hc | hc
          · exact hll hc.symm
          · exact hmem hc

lemma groupLoop_keys_nodup {α : Type} :
    ∀ (ps : List (ℤ × α)) (acc : List (ℤ × List α)),
      (acc.map Prod.fst).Nodup → ((groupLoop ps acc).map Prod.fst).Nodup := by
  intro ps
  induction ps with
  | nil =>
      intro acc h
      simpa [groupLoop] using h
  | cons p ps ih =>
      intro acc h
      obtain ⟨l, x⟩ := p
      simp only [groupLoop]
      refine ih (insertAppend acc l x) ?_
      rw [insertAppend_keys]
      by_cases hmem : l ∈ acc.map Prod.fst
      · rw [if_pos hmem]
        exact h
      · rw [if_neg hmem]
        simp [List.nodup_append, h, hmem]

lemma insertAppend_ne_nil {α : Type} :
    ∀ (acc : List (ℤ × List α)) (l : ℤ) (x : α),
      (∀ g ∈ acc, g.2 ≠ []) → ∀ g ∈ insertAppend acc l x, g.2 ≠ [] := by
  intro acc
  induction acc with
  | nil =>
      intro l x _ g hg
      simp only [insertAppend] at hg
      rcases List.mem_singleton.mp hg with rfl
      simp
  | cons c rest ih =>
      intro l x hacc g hg
      obtain ⟨lc, xs⟩ := c
      by_cases hll : lc = l
      · subst hll
        simp only [insertAppend, if_pos rfl] at hg
        rcases List.mem_cons.mp hg with rfl | hg
        · simp
        · exact hacc g (List.mem_cons_of_mem _ hg)
      · simp only [insertAppend, if_neg hll] at hg
        rcases List.mem_cons.mp hg with rfl | hg
        · exact hacc (lc, xs) (List.mem_cons_self _ _)
        · exact ih l x (fun g2 hg2 => hacc g2 (List.mem_cons_of_mem _ hg2)) g hg

lemma groupLoop_ne_nil {α : Type} :
    ∀ (ps : List (ℤ × α)) (acc : List (ℤ × List α)),
      (∀ g ∈ acc, g.2 ≠ []) → ∀ g ∈ groupLoop ps acc, g.2 ≠ [] := by
  intro ps
  induction ps with
  | nil =>
      intro acc hacc g hg
      simp only [groupLoop] at hg
      exact hacc g hg
  | cons p ps ih =>
      intro acc hacc g hg
      obtain ⟨l, x⟩ := p
      simp only [groupLoop] at hg
      exact ih (insertAppend acc l x) (insertAppend_ne_nil acc l x hacc) g hg

/-! ### Helper lemmas: the produced label list -/

lemma dbscanLabels_length {α : Type} (near : α → α → Bool) (pts : List α) :
    (dbscanLabels near pts).length = pts.length := by
  simp [dbscanLabels]

lemma dbscanLabels_mem_asg {α : Type} (near : α → α → Bool) (pts : List α) (i : ℕ) (l : ℤ)
    (h : (dbscanLabels near pts)[i]? = some l) :
    (i, l) ∈ assignLoop (adjB near pts) pts.length (List.range pts.length) [] 0 := by
  have hi : i < pts.length := by
    by_contra hcon
    push_neg at hcon
    have hlen : (dbscanLabels near pts).length ≤ i := by
      rw [dbscanLabels_length]
      omega
    rw [List.getElem?_eq_none hlen] at h
    cases h
  have hup : (dbscanLabels near pts)[i]?
      = some (((assignLoop (adjB near pts) pts.length (List.range pts.length) [] 0).lookup
          i).getD (-1)) := by
    simp [dbscanLabels, List.getElem?_range, hi]
  rw [hup] at h
  injection h with h
  have htot := assignLoop_total (adjB near pts) pts.length (List.range pts.length) [] 0 i
    (List.mem_range.mpr hi)
  obtain ⟨v, hv⟩ := Option.isSome_iff_exists.mp htot
  rw [hv] at h
  simp only [Option.getD_some] at h
  subst h
  exact lookup_mem _ i v hv

lemma adjB_eq_true_iff {α : Type} (near : α → α → Bool) (pts : List α) (i j : ℕ) :
    adjB near pts i j = true
      ↔ ∃ x y, pts[i]? = some x ∧ pts[j]? = some y ∧ near x y = true := by
  simp only [adjB]
  cases hpi : pts[i]? with
  | none => simp
  | some x =>
      cases hpj : pts[j]? with
      | none => simp
      | some y => simp

/-! ### Claims C1, C2, C9: the cluster engine -/

/-- Claim C2: `cluster_points` partitions its input.  The concatenation of all
cluster member lists is a permutation of the input, cluster labels are
pairwise distinct, no cluster carries the DBSCAN noise label `-1` (all labels
are nonnegative), and the empty input yields the empty mapping without
error. -/
theorem C2_cluster_partition {α : Type} (near : α → α → Bool) (pts : List α) :
    ((cluster_points near pts).map Prod.snd).flatten.Perm pts
    ∧ ((cluster_points near pts).map Prod.fst).Nodup
    ∧ (∀ g ∈ cluster_points near pts, 0 ≤ g.1)
    ∧ cluster_points near ([] : List α) = [] := by
  refine ⟨?_, ?_, ?_, rfl⟩
  · by_cases hemp : pts.isEmpty
    · have hnil : pts = [] := List.isEmpty_iff.mp hemp
      subst hnil
      simp [cluster_points]
    · simp only [cluster_points, hemp, Bool.false_eq_true, if_false]
      refine (groupLoop_join_perm _ []).trans ?_
      simp only [List.map_nil, List.flatten_nil, List.nil_append]
      rw [List.map_snd_zip _ _ (le_of_eq (dbscanLabels_length near pts).symm)]
  · by_cases hemp : pts.isEmpty
    · have hnil : pts = [] := List.isEmpty_iff.mp hemp
      subst hnil
      simp [cluster_points]
    · simp only [cluster_points, hemp, Bool.false_eq_true, if_false]
      exact groupLoop_keys_nodup _ [] (by simp)
  · intro g hg
    by_cases hemp : pts.isEmpty
    · have hnil : pts = [] := List.isEmpty_iff.mp hemp
      subst hnil
      simp [cluster_points] at hg
    · simp only [cluster_points, hemp, Bool.false_eq_true, if_false] at hg
      have hne : g.2 ≠ [] :=
        groupLoop_ne_nil _ [] (fun g2 hg2 => absurd hg2 (List.not_mem_nil g2)) g hg
      obtain ⟨a, ha⟩ := List.exists_mem_of_ne_nil g.2 hne
      have hP0 := groupLoop_mem_pred (fun l x => (l, x) ∈ (dbscanLabels near pts).zip pts)
        ((dbscanLabels near pts).zip pts) []
        (fun g2 hg2 => absurd hg2 (List.not_mem_nil g2)) (fun p hp => hp) g hg a ha
      have hP : (g.1, a) ∈ (dbscanLabels near pts).zip pts := hP0
      rw [List.mem_iff_getElem?] at hP
      obtain ⟨i, hi⟩ := hP
      rw [List.getElem?_zip_eq_some] at hi
      obtain ⟨h1, h2⟩ := hi
      have hmem := dbscanLabels_mem_asg near pts i g.1 h1
      exact assignLoop_nonneg (adjB near pts) pts.length (List.range pts.length) [] 0
        (fun p hp => absurd hp (List.not_mem_nil p)) (le_refl 0) (i, g.1) hmem

/-- Claim C9: within each cluster produced by `cluster_points`, the members
appear in the same relative order as in the input sequence: the Python
grouping loop (src/kml.py lines 72-74) appends records in input order, so
every cluster member list is a sublist of the input. -/
theorem C9_cluster_order_stable {α : Type} (near : α → α → Bool) (pts : List α) :
    ∀ g ∈ cluster_points near pts, g.2.Sublist pts := by
  intro g hg
  by_cases hemp : pts.isEmpty
  · have hnil : pts = [] := List.isEmpty_iff.mp hemp
    subst hnil
    simp [cluster_points] at hg
  · simp only [cluster_points, hemp, Bool.false_eq_true, if_false] at hg
    have hres := groupLoop_sublist ((dbscanLabels near pts).zip pts) [] []
      (fun g2 hg2 => absurd hg2 (List.not_mem_nil g2)) g hg
    rw [List.nil_append,
      List.map_snd_zip _ _ (le_of_eq (dbscanLabels_length near pts).symm)] at hres
    exact hres

/-- Claim C1: for every cluster produced by `cluster_points` with a symmetric
direct-connection predicate (in the program: great-circle distance at most
`maxDistanceKm`), every member is reachable from every other member of the
same cluster through a chain of direct-connection edges between input
records.  The property does not require the two members to be directly
connected themselves (see the witness: the endpoints of the chain are not
directly connected). -/
theorem C1_cluster_chain_connectivity {α : Type} [Inhabited α] (near : α → α → Bool)
    (pts : List α) (hsym : ∀ x y, near x y = near y x) :
    ∀ g ∈ cluster_points near pts, ∀ a ∈ g.2, ∀ b ∈ g.2,
      Relation.ReflTransGen (fun x y => x ∈ pts ∧ y ∈ pts ∧ near x y = true) a b := by
  intro g hg a ha b hb
  by_cases hemp : pts.isEmpty
  · have hnil : pts = [] := List.isEmpty_iff.mp hemp
    subst hnil
    simp [cluster_points] at hg
  · simp only [cluster_points, hemp, Bool.false_eq_true, if_false] at hg
    have hadj : ∀ i j, adjB near pts i j = adjB near pts j i := by
      intro i j
      simp only [adjB]
      cases pts[i]? with
      | none => cases pts[j]? <;> rfl
      | some x =>
          cases pts[j]? with
          | none => rfl
          | some y => exact hsym x y
    have hP := groupLoop_mem_pred (fun l x => (l, x) ∈ (dbscanLabels near pts).zip pts)
      ((dbscanLabels near pts).zip pts) []
      (fun g2 hg2 => absurd hg2 (List.not_mem_nil g2)) (fun p hp => hp) g hg
    have hPa : (g.1, a) ∈ (dbscanLabels near pts).zip pts := hP a ha
    have hPb : (g.1, b) ∈ (dbscanLabels near pts).zip pts := hP b hb
    rw [List.mem_iff_getElem?] at hPa hPb
    obtain ⟨ia, hia⟩ := hPa
    obtain ⟨ib, hib⟩ := hPb
    rw [List.getElem?_zip_eq_some] at hia hib
    obtain ⟨hla, hpa⟩ := hia
    obtain ⟨hlb, hpb⟩ := hib
    have hma := dbscanLabels_mem_asg near pts ia g.1 hla
    have hmb := dbscanLabels_mem_asg near pts ib g.1 hlb
    have hreach := assignLoop_reach (adjB near pts) pts.length hadj
      (List.range pts.length) [] 0
      (fun p hp => absurd hp (List.not_mem_nil p))
      (fun p q hp _ _ => absurd hp (List.not_mem_nil p))
      (ia, g.1) (ib, g.1) hma hmb rfl
    have hstep : ∀ i j : ℕ, adjB near pts i j = true →
        pts.getD i default ∈ pts ∧ pts.getD j default ∈ pts
          ∧ near (pts.getD i default) (pts.getD j default) = true := by
      intro i j h
      rw [adjB_eq_true_iff] at h
      obtain ⟨x, y, hpi, hpj, hxy⟩ := h
      have hgi : pts.getD i default = x := by
        rw [List.getD_eq_getElem?_getD, hpi]
        rfl
      have hgj : pts.getD j default = y := by
        rw [List.getD_eq_getElem?_getD, hpj]
        rfl
      rw [hgi, hgj]
      exact ⟨List.getElem?_mem hpi, List.getElem?_mem hpj, hxy⟩
    have hlift : Relation.ReflTransGen (fun x y => x ∈ pts ∧ y ∈ pts ∧ near x y = true)
        (pts.getD ia default) (pts.getD ib default) :=
      Relation.ReflTransGen.lift (fun i => pts.getD i default) hstep hreach
    have hga : pts.getD ia default = a := by
      rw [List.getD_eq_getElem?_getD, hpa]
      rfl
    have hgb : pts.getD ib default = b := by
      rw [List.getD_eq_getElem?_getD, hpb]
      rfl
    rw [hga, hgb] at hlift
    exact hlift

def nearW : Fin 3 → Fin 3 → Bool :=
  fun x y => decide (((x.val : ℤ) - (y.val : ℤ)).natAbs ≤ 1)

def ptsW : List (Fin 3) := [0, 1, 2]

theorem C1_cluster_chain_connectivity_witness :
    Relation.ReflTransGen (fun x y => x ∈ ptsW ∧ y ∈ ptsW ∧ nearW x y = true) 0 2
    ∧ nearW 0 2 = false :=
  ⟨C1_cluster_chain_connectivity nearW ptsW (by decide)
      ((0 : ℤ), ([0, 1, 2] : List (Fin 3))) (by decide) 0 (by decide) 2 (by decide),
   by decide⟩

theorem C2_cluster_partition_witness :
    ((cluster_points nearW ptsW).map Prod.snd).flatten.Perm ptsW
    ∧ (0 : ℤ) ≤ ((0 : ℤ), ([0, 1, 2] : List (Fin 3))).1 :=
  ⟨(C2_cluster_partition nearW ptsW).1,
   (C2_cluster_partition nearW ptsW).2.2.1 ((0 : ℤ), ([0, 1, 2] : List (Fin 3))) (by decide)⟩

def nearX : Fin 6 → Fin 6 → Bool :=
  fun x y => decide (((x.val : ℤ) - (y.val : ℤ)).natAbs ≤ 1)

def ptsX : List (Fin 6) := [0, 5, 1]

theorem C9_cluster_order_stable_witness :
    (([0, 1] : List (Fin 6)).Sublist ptsX) :=
  C9_cluster_order_stable nearX ptsX ((0 : ℤ), ([0, 1] : List (Fin 6))) (by decide)
